import Mathlib

/-!
Shallow embedding of the ATN graph module of the antlr4-go runtime
(file atn.go) together with the collaborator interfaces it uses, and
theorems checking the specified properties of that module.

Conventions of the embedding:
* Go references into the state array are represented by state numbers
  (natural indices into the states list); addState keeps the slot index
  and the stored state number in sync, exactly as the Go code does.
* Go nil slots of the state slice are none entries.
* Fatal Go panics are represented by Except.error with a message that
  identifies the panic site; stateful operations return the mutated ATN
  next to their result, since the Go methods mutate the receiver in
  place.
* The Lookahead Analyzer, the IntervalSet internals, the token constants
  and the RuleContext type are collaborators outside this core; they are
  modelled from the spec, as marked on each definition.
-/

namespace Antlr

/-- Modelled from the spec: the reserved epsilon marker token identifier
(no input consumed; continue past this point), from token.go, which is
not part of this core. -/
def TokenEpsilon : Int := -2

/-- Modelled from the spec: the reserved end-of-input marker token
identifier, from token.go, which is not part of this core. -/
def TokenEOF : Int := -1

/-- Modelled from the spec: the IntervalSet collaborator is an opaque
ordered set of integer token identifiers supporting union, membership,
single-element insertion and single-element removal (interval coalescing
is out of scope); it is modelled by the list of its member tokens plus
the readOnly flag that atn.go sets on memoized sets. -/
structure IntervalSet where
  tokens : List Int
  readOnly : Bool
deriving Repr, DecidableEq

/-- Modelled from the spec: the constructor NewIntervalSet, an empty
mutable set. -/
def NewIntervalSet : IntervalSet := ⟨[], false⟩

/-- Modelled from the spec: the membership test (method Contains). -/
def IntervalSet.Contains (s : IntervalSet) (v : Int) : Bool :=
  s.tokens.contains v

/-- Modelled from the spec: in-place union (method addSet); the receiver
keeps its readOnly flag. -/
def IntervalSet.addSet (s o : IntervalSet) : IntervalSet :=
  { s with tokens := s.tokens ++ o.tokens }

/-- Modelled from the spec: removal of a single token (method
removeOne). -/
def IntervalSet.removeOne (s : IntervalSet) (v : Int) : IntervalSet :=
  { s with tokens := s.tokens.filter (fun t => decide (t ≠ v)) }

/-- Modelled from the spec: insertion of a single token (method
AddOne). -/
def IntervalSet.AddOne (s : IntervalSet) (v : Int) : IntervalSet :=
  { s with tokens := s.tokens ++ [v] }

/-- Modelled from the spec: the readOnly marker write that
NextTokensNoContext performs before publishing a memoized set. -/
def IntervalSet.setReadOnly (s : IntervalSet) (b : Bool) : IntervalSet :=
  { s with readOnly := b }

/-- Modelled from the spec: the transition kinds of the graph, as far as
this core inspects them — getExpectedTokens downcasts the first outgoing
transition of an invoking state to a rule transition and reads its follow
state (a state reference, modelled by state number); every other
transition kind is opaque here. -/
inductive Transition where
  | rule (followState : Nat) : Transition
  | other : Transition
deriving Repr, DecidableEq

/-- ATNState models the fields of a graph state that atn.go touches: the
assigned state number (SetStateNumber and GetStateNumber), the outgoing
transitions (GetTransitions) and the memoized next-token-within-rule set
(GetNextTokenWithinRule and SetNextTokenWithinRule). The SetATN back
reference and the remaining fields of the state type are never read by
this module and are not modelled. -/
structure ATNState where
  stateNumber : Int := -1
  transitions : List Transition := []
  nextTokenWithinRule : Option IntervalSet := none
deriving Repr, DecidableEq

/-- DecisionState models the decision-state interface as used by atn.go:
a state that additionally carries a decision index (setDecision and
getDecision). -/
structure DecisionState where
  stateNumber : Int := -1
  decision : Int := -1
deriving Repr, DecidableEq

/-- Modelled from the spec: the RuleContext chain consumed by this core
(the context type is not part of it). A link is either the Go nil
reference or a node carrying the invoking state number recorded in the
caller and the parent link; the shared empty root marker is the
parentless node whose invoking state is -1. -/
inductive RuleContext where
  | nil : RuleContext
  | node (invokingState : Int) (parent : RuleContext) : RuleContext
deriving Repr, DecidableEq

/-- Modelled from the spec: the shared empty root context marker (the
EMPTY parser rule context), a parentless link whose invoking state
is -1. -/
def RuleContextEmpty : RuleContext := .node (-1) .nil

/-- ATN is the graph container of atn.go restricted to the fields this
module reads or writes: the dense state array (nil slots allowed), the
decision-state index, the grammar type and the maximal token type. The
rule, mode and lexer-action tables are never touched by the operations
under verification and are omitted. -/
structure ATN where
  DecisionToState : List DecisionState := []
  grammarType : Int := 0
  maxTokenType : Int := 0
  states : List (Option ATNState) := []
deriving Repr, DecidableEq

/-- NewATN returns a new ATN of the given grammar type and maximal token
type, with no states. -/
def NewATN (grammarType maxTokenType : Int) : ATN :=
  { grammarType := grammarType, maxTokenType := maxTokenType }

/-- Modelled from the spec: the Lookahead Analyzer collaborator (the Look
method that NextTokensInContext delegates to; its file is not part of
this core). Per the spec it performs a pure closure search over the
fixed, immutable graph structure: its answer depends only on the seed
state and the context, never on the per-state memoization caches, so for
one fixed graph it is modelled as a function from state number and
context to the resulting token set. -/
abbrev LookFn : Type := Nat → RuleContext → IntervalSet

/-- NextTokensInContext computes the set of valid tokens that can occur
starting in state s by delegating to the Lookahead Analyzer, passing the
context through unchanged; with a nil context the answer is restricted to
the rule of s. -/
def ATN.NextTokensInContext (look : LookFn) (_a : ATN) (sn : Nat) (ctx : RuleContext) :
    IntervalSet :=
  look sn ctx

/-- writeCache stores a computed next-token-within-rule set on the state
in slot sn; this is the SetNextTokenWithinRule write seen through the
state array. -/
def ATN.writeCache (a : ATN) (sn : Nat) (s : ATNState) (c : IntervalSet) : ATN :=
  { a with states := a.states.set sn (some { s with nextTokenWithinRule := some c }) }

/-- NextTokensNoContext computes the set of valid tokens that can occur
in state s staying in its rule, memoized on the state: an absent cache is
filled with the analyzer answer marked read-only; a present cache is
returned unchanged. Dereferencing a missing state is the Go nil-pointer
panic. -/
def ATN.NextTokensNoContext (look : LookFn) (a : ATN) (sn : Nat) :
    Except String IntervalSet × ATN :=
  match a.states.get? sn with
  | some (some s) =>
    match s.nextTokenWithinRule with
    | some iset => (.ok iset, a)
    | none =>
      let iset := (a.NextTokensInContext look sn RuleContext.nil).setReadOnly true
      (.ok iset, a.writeCache sn s iset)
  | _ => (.error "nil state dereference", a)

/-- NextTokens computes the set of valid tokens starting in state s by
calling either NextTokensNoContext (when ctx is the Go nil) or
NextTokensInContext (any non-nil ctx), exactly as the Go dispatch
does. -/
def ATN.NextTokens (look : LookFn) (a : ATN) (sn : Nat) (ctx : RuleContext) :
    Except String IntervalSet × ATN :=
  match ctx with
  | .nil => a.NextTokensNoContext look sn
  | _ => (.ok (a.NextTokensInContext look sn ctx), a)

/-- addState assigns the next sequential state number (the current length
of the state array) to a non-nil state and appends it; a nil state is
appended without any number assignment. The SetATN back reference the Go
code also writes is not modelled. -/
def ATN.addState (a : ATN) (state : Option ATNState) : ATN :=
  match state with
  | some s =>
    { a with states := a.states ++ [some { s with stateNumber := (a.states.length : Int) }] }
  | none => { a with states := a.states ++ [none] }

/-- removeState clears the slot indexed by the state number of the given
state, without shifting or renumbering any other entry; an out-of-range
number is the Go slice-index panic. -/
def ATN.removeState (a : ATN) (state : ATNState) : Except String ATN :=
  if 0 ≤ state.stateNumber ∧ state.stateNumber.toNat < a.states.length then
    .ok { a with states := a.states.set state.stateNumber.toNat none }
  else
    .error "index out of range"

/-- defineDecisionState appends s to the decision index, stamps s with
its new dense zero-based decision index and returns that index together
with the mutated graph. The Go code appends the state reference first and
then stamps it through that reference; the embedding stamps before
appending, with the same observable result. -/
def ATN.defineDecisionState (a : ATN) (s : DecisionState) : Int × ATN :=
  let d : Int := (a.DecisionToState.length : Int)
  let s2 := { s with decision := d }
  (s2.decision, { a with DecisionToState := a.DecisionToState ++ [s2] })

/-- getDecisionState returns the decision state stored at the given
decision index, or the Go nil when no decision states exist yet; an
out-of-range index on a populated table is the Go slice-index panic. -/
def ATN.getDecisionState (a : ATN) (decision : Int) : Except String (Option DecisionState) :=
  if a.DecisionToState.length = 0 then
    .ok none
  else if 0 ≤ decision ∧ decision.toNat < a.DecisionToState.length then
    .ok (a.DecisionToState.get? decision.toNat)
  else
    .error "index out of range"

/-- loopStep is one body of the context-walk loop of getExpectedTokens,
shared verbatim by the source walk and by step 4 of the reference
algorithm in the spec: look up the invoking state (an out-of-range number
is the Go slice-index panic, a nil slot the Go nil-pointer panic), take
its first outgoing transition (a missing transition is the Go slice-index
panic), downcast it to a rule transition (any other kind is the Go failed
type assertion) and recompute the next tokens of its follow state with
nil context. -/
def ATN.loopStep (look : LookFn) (a : ATN) (invokingStateNumber : Int) :
    Except String IntervalSet × ATN :=
  match a.states.get? invokingStateNumber.toNat with
  | some (some invokingState) =>
    match invokingState.transitions.head? with
    | some (.rule followState) => a.NextTokens look followState RuleContext.nil
    | some .other => (.error "type assertion failed", a)
    | none => (.error "index out of range", a)
  | some none => (.error "nil state dereference", a)
  | none => (.error "index out of range", a)

/-- expectedLoop is the context-chain walk inside getExpectedTokens:
while the context link is non-nil, its invoking state is non-negative and
the most recently computed following set contains the epsilon marker, it
runs loopStep at the invoking state, unions the recomputed following set
into the accumulator, removes epsilon from the accumulator and advances
to the parent link. It returns the final following set next to the
accumulator. -/
def ATN.expectedLoop (look : LookFn) (a : ATN) (ctx : RuleContext)
    (following expected : IntervalSet) :
    Except String (IntervalSet × IntervalSet) × ATN :=
  match ctx with
  | .nil => (.ok (following, expected), a)
  | .node invokingStateNumber parent =>
    if 0 ≤ invokingStateNumber ∧ following.Contains TokenEpsilon then
      match a.loopStep look invokingStateNumber with
      | (.ok following2, a2) =>
        a2.expectedLoop look parent following2
          ((expected.addSet following2).removeOne TokenEpsilon)
      | (.error e, a2) => (.error e, a2)
    else (.ok (following, expected), a)

/-- getExpectedTokens computes the set of input symbols which could
follow state number stateNumber in the full parse context ctx: it panics
on an out-of-range state number, computes the context-free following set,
returns it unchanged when it lacks the epsilon marker, and otherwise
accumulates the following sets along the invoking-state chain, adding the
end-of-input marker when the outermost context is exhausted while still
epsilon-reachable. -/
def ATN.getExpectedTokens (look : LookFn) (a : ATN) (stateNumber : Int) (ctx : RuleContext) :
    Except String IntervalSet × ATN :=
  if stateNumber < 0 ∨ (a.states.length : Int) ≤ stateNumber then
    (.error "Invalid state number.", a)
  else
    match a.NextTokens look stateNumber.toNat RuleContext.nil with
    | (.error e, a1) => (.error e, a1)
    | (.ok following, a1) =>
      if ¬ following.Contains TokenEpsilon then
        (.ok following, a1)
      else
        match a1.expectedLoop look ctx following
            ((NewIntervalSet.addSet following).removeOne TokenEpsilon) with
        | (.ok (following2, expected2), a2) =>
          if following2.Contains TokenEpsilon then
            (.ok (expected2.AddOne TokenEOF), a2)
          else
            (.ok expected2, a2)
        | (.error e, a2) => (.error e, a2)

/-- specExpectedLoop is the context walk of step 4 of the reference
algorithm in the spec for getExpectedTokens, written from the spec text:
while the current link is non-root, has a non-negative invoking state and
the most recently computed following set still contains the epsilon
marker, look up the first outgoing transition of the invoking state
(which the spec asserts is the rule-invocation transition carrying the
follow state; a graph violating that assertion fails fast, as the spec
design notes require), recompute following as the next tokens of that
follow state with nil context, union following minus epsilon into the
accumulator, and advance to the parent link. -/
def ATN.specExpectedLoop (look : LookFn) (a : ATN) (ctx : RuleContext)
    (following accumulator : IntervalSet) :
    Except String (IntervalSet × IntervalSet) × ATN :=
  match ctx with
  | .nil => (.ok (following, accumulator), a)
  | .node invokingStateNumber parent =>
    if 0 ≤ invokingStateNumber ∧ following.Contains TokenEpsilon then
      match a.loopStep look invokingStateNumber with
      | (.ok following2, a2) =>
        a2.specExpectedLoop look parent following2
          (accumulator.addSet (following2.removeOne TokenEpsilon))
      | (.error e, a2) => (.error e, a2)
    else (.ok (following, accumulator), a)

/-- specGetExpectedTokens is the reference algorithm the spec gives for
getExpectedTokens, written from its six numbered steps: validate the
state number (fatal invalid-state error otherwise), compute the
context-free following set, return it as-is when it lacks the epsilon
marker, otherwise seed an accumulator with following minus epsilon, walk
the context chain with specExpectedLoop, add the end-of-input marker when
the final following set still contains epsilon, and return the
accumulator. -/
def ATN.specGetExpectedTokens (look : LookFn) (a : ATN) (stateNumber : Int)
    (ctx : RuleContext) : Except String IntervalSet × ATN :=
  if stateNumber < 0 ∨ (a.states.length : Int) ≤ stateNumber then
    (.error "Invalid state number.", a)
  else
    match a.NextTokens look stateNumber.toNat RuleContext.nil with
    | (.error e, a1) => (.error e, a1)
    | (.ok following, a1) =>
      if ¬ following.Contains TokenEpsilon then
        (.ok following, a1)
      else
        match a1.specExpectedLoop look ctx following
            (NewIntervalSet.addSet (following.removeOne TokenEpsilon)) with
        | (.ok (following2, accumulator), a2) =>
          if following2.Contains TokenEpsilon then
            (.ok (accumulator.AddOne TokenEOF), a2)
          else
            (.ok accumulator, a2)
        | (.error e, a2) => (.error e, a2)

/-- clearCache removes the memoized set of a state; it is used to compare
graphs up to cache contents. -/
def ATNState.clearCache (s : ATNState) : ATNState :=
  { s with nextTokenWithinRule := none }

/-- eraseCaches clears every memoized per-state set of the graph, leaving
only the structural part (slots, numbers, transitions, tables). -/
def ATN.eraseCaches (a : ATN) : ATN :=
  { a with states := a.states.map (fun slot => slot.map ATNState.clearCache) }

/-- CacheConsistent is the reachable-cache invariant: every populated
memoized set in the graph is exactly the read-only copy of the analyzer
answer for its state with nil context — the only value that
NextTokensNoContext ever stores. It holds in particular for every graph
whose caches are all still absent. -/
def CacheConsistent (look : LookFn) (a : ATN) : Prop :=
  ∀ sn s c, a.states.get? sn = some (some s) → s.nextTokenWithinRule = some c →
    c = (look sn RuleContext.nil).setReadOnly true

/-- firstRuleFollow reads the follow state carried by the first outgoing
transition of the state in slot sn, when that slot holds a state whose
first transition is a rule transition. -/
def ATN.firstRuleFollow (a : ATN) (sn : Nat) : Option Nat :=
  match a.states.get? sn with
  | some (some s) =>
    match s.transitions.head? with
    | some (.rule followState) => some followState
    | _ => none
  | _ => none

/-- rootOnly holds for a context that carries no caller information: the
Go nil reference, or a link whose invoking state is negative (such as the
shared empty root marker). -/
def RuleContext.rootOnly : RuleContext → Prop
  | .nil => True
  | .node invokingState _ => invokingState < 0

/-- allEpsilon holds for a context chain all of whose links are walkable
by the expected-token loop with an epsilon-containing following set at
every level: each link has a non-negative invoking state whose first
transition is a rule transition, and the analyzer answer at its follow
state again contains the epsilon marker. -/
def allEpsilon (look : LookFn) (a : ATN) : RuleContext → Prop
  | .nil => True
  | .node invokingState parent =>
    0 ≤ invokingState ∧
      ∃ fs, a.firstRuleFollow invokingState.toNat = some fs ∧
        TokenEpsilon ∈ (look fs RuleContext.nil).tokens ∧ allEpsilon look a parent

/-- Query enumerates the read-side operations of the module, the ones a
consumer may issue after construction. -/
inductive Query where
  | nextTokens (sn : Nat) (ctx : RuleContext)
  | nextTokensNoContext (sn : Nat)
  | nextTokensInContext (sn : Nat) (ctx : RuleContext)
  | getExpectedTokens (stateNumber : Int) (ctx : RuleContext)

/-- stepQuery is the effect of one query on the graph: the returned set
is dropped and only the memoization writes remain. -/
def stepQuery (look : LookFn) (a : ATN) : Query → ATN
  | .nextTokens sn ctx => (a.NextTokens look sn ctx).2
  | .nextTokensNoContext sn => (a.NextTokensNoContext look sn).2
  | .nextTokensInContext _ _ => a
  | .getExpectedTokens n ctx => (a.getExpectedTokens look n ctx).2

/-- runQueries folds a list of queries over the graph. -/
def runQueries (look : LookFn) (a : ATN) : List Query → ATN
  | [] => a
  | q :: qs => runQueries look (stepQuery look a q) qs

/-- ATNInvalidAltNumber represents the package-level variable of atn.go
that stands for an alternative number which is not yet computed or
invalid; it is declared without an initializer, so it holds the Go zero
value, and no operation of this core ever assigns to it. -/
def ATNInvalidAltNumber : Int := 0

/-- ProgOp enumerates every operation defined in atn.go, construction and
query alike. -/
inductive ProgOp where
  | opAddState (st : Option ATNState)
  | opRemoveState (st : ATNState)
  | opDefineDecisionState (s : DecisionState)
  | opGetDecisionState (d : Int)
  | opQuery (q : Query)

/-- stepProg is the effect of one operation on the package state — the
graph together with the package-level sentinel variable. No statement in
atn.go mentions the sentinel, so every operation leaves that component
untouched, exactly as in the source. -/
def stepProg (look : LookFn) (p : ATN × Int) : ProgOp → ATN × Int
  | .opAddState st => (p.1.addState st, p.2)
  | .opRemoveState st =>
    match p.1.removeState st with
    | .ok a2 => (a2, p.2)
    | .error _ => (p.1, p.2)
  | .opDefineDecisionState s => ((p.1.defineDecisionState s).2, p.2)
  | .opGetDecisionState _ => p
  | .opQuery q => (stepQuery look p.1 q, p.2)

/-- runProgram folds a list of operations over the package state. -/
def runProgram (look : LookFn) (p : ATN × Int) : List ProgOp → ATN × Int
  | [] => p
  | op :: ops => runProgram look (stepProg look p op) ops

/-- canonicalNext is the value that every successful NextTokens call
returns on a cache-consistent graph: the read-only memoized analyzer
answer for the nil context, the raw analyzer answer otherwise. -/
def canonicalNext (look : LookFn) (sn : Nat) : RuleContext → IntervalSet
  | .nil => (look sn RuleContext.nil).setReadOnly true
  | ctx => look sn ctx

section ListHelpers

variable {α β : Type}

lemma list_get?_some_lt (l : List α) (n : Nat) (x : α) (h : l.get? n = some x) :
    n < l.length := by
  induction l generalizing n with
  | nil => simp [List.get?] at h
  | cons a t ih =>
    cases n with
    | zero => simp
    | succ m =>
      simp only [List.get?] at h
      exact Nat.succ_lt_succ (ih m h)

lemma list_get?_set_self (l : List α) (n : Nat) (x : α) (h : n < l.length) :
    (l.set n x).get? n = some x := by
  induction l generalizing n with
  | nil => simp at h
  | cons a t ih =>
    cases n with
    | zero => rfl
    | succ m =>
      simp only [List.set, List.get?]
      exact ih m (Nat.lt_of_succ_lt_succ h)

lemma list_get?_set_other (l : List α) (m n : Nat) (x : α) (h : m ≠ n) :
    (l.set m x).get? n = l.get? n := by
  induction l generalizing m n with
  | nil => rfl
  | cons a t ih =>
    cases m with
    | zero =>
      cases n with
      | zero => exact absurd rfl h
      | succ k => rfl
    | succ m2 =>
      cases n with
      | zero => rfl
      | succ k =>
        simp only [List.set, List.get?]
        exact ih m2 k (fun hh => h (by rw [hh]))

lemma list_map_set (f : α → β) (l : List α) (n : Nat) (x : α) :
    (l.set n x).map f = (l.map f).set n (f x) := by
  induction l generalizing n with
  | nil => rfl
  | cons a t ih =>
    cases n with
    | zero => rfl
    | succ m => simp only [List.set, List.map, ih]

lemma list_set_get?_self (l : List α) (n : Nat) (x : α) (h : l.get? n = some x) :
    l.set n x = l := by
  induction l generalizing n with
  | nil => rfl
  | cons a t ih =>
    cases n with
    | zero =>
      simp only [List.get?] at h
      simp [Option.some.injEq] at h
      simp [List.set, h]
    | succ m =>
      simp only [List.get?] at h
      simp [List.set, ih m h]

lemma list_get?_map (f : α → β) (l : List α) (n : Nat) :
    (l.map f).get? n = (l.get? n).map f := by
  induction l generalizing n with
  | nil => rfl
  | cons a t ih =>
    cases n with
    | zero => rfl
    | succ m => exact ih m

end ListHelpers

section IntervalSetLemmas

lemma Contains_iff (s : IntervalSet) (v : Int) :
    s.Contains v = true ↔ v ∈ s.tokens := by
  simp [IntervalSet.Contains, List.contains, List.elem_iff]

lemma mem_addSet (s o : IntervalSet) (t : Int) :
    t ∈ (s.addSet o).tokens ↔ t ∈ s.tokens ∨ t ∈ o.tokens := by
  simp [IntervalSet.addSet]

lemma mem_removeOne (s : IntervalSet) (v t : Int) :
    t ∈ (s.removeOne v).tokens ↔ t ∈ s.tokens ∧ t ≠ v := by
  simp [IntervalSet.removeOne, List.mem_filter]

lemma mem_AddOne (s : IntervalSet) (v t : Int) :
    t ∈ (s.AddOne v).tokens ↔ t ∈ s.tokens ∨ t = v := by
  simp [IntervalSet.AddOne]

lemma tokens_setReadOnly (s : IntervalSet) (b : Bool) :
    (s.setReadOnly b).tokens = s.tokens := rfl

lemma not_mem_removeOne (s : IntervalSet) (v : Int) :
    v ∉ (s.removeOne v).tokens := by
  simp [mem_removeOne]

lemma addSet_removeOne_comm (s o : IntervalSet) (v : Int) (h : v ∉ s.tokens) :
    (s.addSet o).removeOne v = s.addSet (o.removeOne v) := by
  have hs : s.tokens.filter (fun t => decide (t ≠ v)) = s.tokens :=
    List.filter_eq_self.mpr (fun t ht => decide_eq_true (fun he => h (he ▸ ht)))
  show IntervalSet.mk ((s.tokens ++ o.tokens).filter (fun t => decide (t ≠ v))) s.readOnly
      = IntervalSet.mk (s.tokens ++ o.tokens.filter (fun t => decide (t ≠ v))) s.readOnly
  rw [List.filter_append, hs]

end IntervalSetLemmas

section ExpectedEquivalence

/-- expectedLoop and specExpectedLoop agree whenever the accumulator does
not yet contain the epsilon marker (which is an invariant of both): the
only textual difference is removing epsilon after the union versus
unioning the epsilon-stripped set. -/
lemma expectedLoop_eq_specLoop (look : LookFn) :
    ∀ (ctx : RuleContext) (a : ATN) (f e : IntervalSet),
      TokenEpsilon ∉ e.tokens →
      a.expectedLoop look ctx f e = a.specExpectedLoop look ctx f e := by
  intro ctx
  induction ctx with
  | nil => intro a f e _; rfl
  | node inv parent ih =>
    intro a f e he
    simp only [ATN.expectedLoop, ATN.specExpectedLoop]
    by_cases hg : 0 ≤ inv ∧ f.Contains TokenEpsilon
    · rw [if_pos hg, if_pos hg]
      generalize a.loopStep look inv = st
      rcases st with ⟨res, a2⟩
      rcases res with e2 | f2
      · rfl
      · show a2.expectedLoop look parent f2 ((e.addSet f2).removeOne TokenEpsilon)
            = a2.specExpectedLoop look parent f2 (e.addSet (f2.removeOne TokenEpsilon))
        rw [addSet_removeOne_comm e f2 TokenEpsilon he]
        exact ih a2 f2 (e.addSet (f2.removeOne TokenEpsilon))
          (by
            rw [mem_addSet]
            rintro (h1 | h2)
            · exact he h1
            · exact not_mem_removeOne f2 TokenEpsilon h2)
    · rw [if_neg hg, if_neg hg]

end ExpectedEquivalence

/-- C1: getExpectedTokens follows the reference algorithm of the spec —
it validates the state number, computes the context-free following set,
returns it unchanged when epsilon is absent, and otherwise seeds an
accumulator with following minus epsilon and walks the context chain
while the link is non-root with a non-negative invoking state and the
latest following set contains epsilon, unioning each epsilon-stripped
following set of the first outgoing transitions follow state, finally
adding the end-of-input marker if epsilon survived. The two definitions
agree on every input, including the mutated graph and every failure
case. -/
theorem getExpectedTokens_follows_spec (look : LookFn) (a : ATN) (n : Int)
    (ctx : RuleContext) :
    a.getExpectedTokens look n ctx = a.specGetExpectedTokens look n ctx := by
  simp only [ATN.getExpectedTokens, ATN.specGetExpectedTokens]
  by_cases hb : n < 0 ∨ (a.states.length : Int) ≤ n
  · rw [if_pos hb, if_pos hb]
  · rw [if_neg hb, if_neg hb]
    generalize a.NextTokens look n.toNat RuleContext.nil = nt
    rcases nt with ⟨res, a1⟩
    rcases res with e | following
    · rfl
    · show (if ¬ following.Contains TokenEpsilon then _ else _)
          = (if ¬ following.Contains TokenEpsilon then _ else _)
      by_cases hc : following.Contains TokenEpsilon
      · rw [if_neg (not_not_intro hc), if_neg (not_not_intro hc)]
        rw [addSet_removeOne_comm NewIntervalSet following TokenEpsilon (by
          simp [NewIntervalSet])]
        rw [expectedLoop_eq_specLoop look ctx a1 following
          (NewIntervalSet.addSet (following.removeOne TokenEpsilon)) (by
            rw [mem_addSet]
            rintro (h1 | h2)
            · simp [NewIntervalSet] at h1
            · exact not_mem_removeOne following TokenEpsilon h2)]
      · rw [if_pos hc, if_pos hc]

section EffectLemmas

lemma eraseCaches_states_length (a : ATN) :
    a.eraseCaches.states.length = a.states.length := by
  simp [ATN.eraseCaches]

lemma states_length_of_eraseCaches {a b : ATN} (h : a.eraseCaches = b.eraseCaches) :
    a.states.length = b.states.length := by
  rw [← eraseCaches_states_length a, ← eraseCaches_states_length b, h]

lemma writeCache_eraseCaches (a : ATN) (sn : Nat) (s : ATNState) (c : IntervalSet)
    (h : a.states.get? sn = some (some s)) :
    (a.writeCache sn s c).eraseCaches = a.eraseCaches := by
  simp only [ATN.writeCache, ATN.eraseCaches]
  congr 1
  rw [list_map_set]
  exact list_set_get?_self _ _ _ (by rw [list_get?_map, h]; rfl)

lemma nextNoCtx_snd_eraseCaches (look : LookFn) (a : ATN) (sn : Nat) :
    ((a.NextTokensNoContext look sn).2).eraseCaches = a.eraseCaches := by
  simp only [ATN.NextTokensNoContext]
  split
  next s heq =>
    split
    · rfl
    · exact writeCache_eraseCaches a sn s _ heq
  next x heq => rfl

lemma nextTokens_snd_eraseCaches (look : LookFn) (a : ATN) (sn : Nat) (ctx : RuleContext) :
    ((a.NextTokens look sn ctx).2).eraseCaches = a.eraseCaches := by
  cases ctx with
  | nil => exact nextNoCtx_snd_eraseCaches look a sn
  | node inv p => rfl

lemma loopStep_snd_eraseCaches (look : LookFn) (a : ATN) (inv : Int) :
    ((a.loopStep look inv).2).eraseCaches = a.eraseCaches := by
  simp only [ATN.loopStep]
  split
  next s heq =>
    split
    · exact nextTokens_snd_eraseCaches look a _ RuleContext.nil
    · rfl
    · rfl
  next heq => rfl
  next heq => rfl

lemma expectedLoop_snd_eraseCaches (look : LookFn) :
    ∀ (ctx : RuleContext) (a : ATN) (f e : IntervalSet),
      ((a.expectedLoop look ctx f e).2).eraseCaches = a.eraseCaches := by
  intro ctx
  induction ctx with
  | nil => intro a f e; rfl
  | node inv parent ih =>
    intro a f e
    simp only [ATN.expectedLoop]
    by_cases hg : 0 ≤ inv ∧ f.Contains TokenEpsilon
    · rw [if_pos hg]
      split
      next f2 a2 heq =>
        rw [ih a2 f2 _]
        have h2 := loopStep_snd_eraseCaches look a inv
        rw [heq] at h2
        exact h2
      next e2 a2 heq =>
        have h2 := loopStep_snd_eraseCaches look a inv
        rw [heq] at h2
        exact h2
    · rw [if_neg hg]

lemma getExpected_snd_eraseCaches (look : LookFn) (a : ATN) (n : Int) (ctx : RuleContext) :
    ((a.getExpectedTokens look n ctx).2).eraseCaches = a.eraseCaches := by
  simp only [ATN.getExpectedTokens]
  split
  · rfl
  · split
    next e a1 heq =>
      have h1 := nextTokens_snd_eraseCaches look a n.toNat RuleContext.nil
      rw [heq] at h1
      exact h1
    next following a1 heq =>
      have h1 := nextTokens_snd_eraseCaches look a n.toNat RuleContext.nil
      rw [heq] at h1
      split
      · exact h1
      · split
        next f2 e2 a2 heq2 =>
          have h2 := expectedLoop_snd_eraseCaches look ctx a1 following
            ((NewIntervalSet.addSet following).removeOne TokenEpsilon)
          rw [heq2] at h2
          split
          · exact h2.trans h1
          · exact h2.trans h1
        next e2 a2 heq2 =>
          have h2 := expectedLoop_snd_eraseCaches look ctx a1 following
            ((NewIntervalSet.addSet following).removeOne TokenEpsilon)
          rw [heq2] at h2
          exact h2.trans h1

lemma stepQuery_eraseCaches (look : LookFn) (a : ATN) (q : Query) :
    (stepQuery look a q).eraseCaches = a.eraseCaches := by
  cases q with
  | nextTokens sn ctx => exact nextTokens_snd_eraseCaches look a sn ctx
  | nextTokensNoContext sn => exact nextNoCtx_snd_eraseCaches look a sn
  | nextTokensInContext sn ctx => rfl
  | getExpectedTokens n ctx => exact getExpected_snd_eraseCaches look a n ctx

lemma runQueries_eraseCaches (look : LookFn) :
    ∀ (qs : List Query) (a : ATN), (runQueries look a qs).eraseCaches = a.eraseCaches := by
  intro qs
  induction qs with
  | nil => intro a; rfl
  | cons q t ih =>
    intro a
    simp only [runQueries]
    rw [ih (stepQuery look a q), stepQuery_eraseCaches look a q]

end EffectLemmas

section CacheInvariant

lemma cc_writeCache (look : LookFn) (a : ATN) (sn : Nat) (s : ATNState)
    (h : CacheConsistent look a) (heq : a.states.get? sn = some (some s)) :
    CacheConsistent look (a.writeCache sn s ((look sn RuleContext.nil).setReadOnly true)) := by
  intro j s2 c2 hj hc2
  simp only [ATN.writeCache] at hj
  by_cases hjs : sn = j
  · subst hjs
    rw [list_get?_set_self _ _ _ (list_get?_some_lt _ _ _ heq)] at hj
    have hs2 := Option.some.inj (Option.some.inj hj)
    rw [← hs2] at hc2
    exact (Option.some.inj hc2).symm
  · rw [list_get?_set_other _ _ _ _ hjs] at hj
    exact h j s2 c2 hj hc2

lemma cc_nextNoCtx (look : LookFn) (a : ATN) (sn : Nat) (h : CacheConsistent look a) :
    CacheConsistent look (a.NextTokensNoContext look sn).2 := by
  simp only [ATN.NextTokensNoContext]
  split
  next s heq =>
    split
    · exact h
    · exact cc_writeCache look a sn s h heq
  next x heq => exact h

lemma cc_nextTokens (look : LookFn) (a : ATN) (sn : Nat) (ctx : RuleContext)
    (h : CacheConsistent look a) :
    CacheConsistent look (a.NextTokens look sn ctx).2 := by
  cases ctx with
  | nil => exact cc_nextNoCtx look a sn h
  | node inv p => exact h

lemma cc_loopStep (look : LookFn) (a : ATN) (inv : Int) (h : CacheConsistent look a) :
    CacheConsistent look (a.loopStep look inv).2 := by
  simp only [ATN.loopStep]
  split
  next s heq =>
    split
    · exact cc_nextTokens look a _ RuleContext.nil h
    · exact h
    · exact h
  next heq => exact h
  next heq => exact h

lemma cc_expectedLoop (look : LookFn) :
    ∀ (ctx : RuleContext) (a : ATN) (f e : IntervalSet), CacheConsistent look a →
      CacheConsistent look (a.expectedLoop look ctx f e).2 := by
  intro ctx
  induction ctx with
  | nil => intro a f e h; exact h
  | node inv parent ih =>
    intro a f e h
    simp only [ATN.expectedLoop]
    by_cases hg : 0 ≤ inv ∧ f.Contains TokenEpsilon
    · rw [if_pos hg]
      split
      next f2 a2 heq =>
        apply ih
        have h2 := cc_loopStep look a inv h
        rw [heq] at h2
        exact h2
      next e2 a2 heq =>
        have h2 := cc_loopStep look a inv h
        rw [heq] at h2
        exact h2
    · rw [if_neg hg]
      exact h

lemma cc_getExpected (look : LookFn) (a : ATN) (n : Int) (ctx : RuleContext)
    (h : CacheConsistent look a) :
    CacheConsistent look (a.getExpectedTokens look n ctx).2 := by
  simp only [ATN.getExpectedTokens]
  split
  · exact h
  · split
    next e a1 heq =>
      have h1 := cc_nextTokens look a n.toNat RuleContext.nil h
      rw [heq] at h1
      exact h1
    next following a1 heq =>
      have h1 := cc_nextTokens look a n.toNat RuleContext.nil h
      rw [heq] at h1
      split
      · exact h1
      · split
        next f2 e2 a2 heq2 =>
          have h2 := cc_expectedLoop look ctx a1 following
            ((NewIntervalSet.addSet following).removeOne TokenEpsilon) h1
          rw [heq2] at h2
          split
          · exact h2
          · exact h2
        next e2 a2 heq2 =>
          have h2 := cc_expectedLoop look ctx a1 following
            ((NewIntervalSet.addSet following).removeOne TokenEpsilon) h1
          rw [heq2] at h2
          exact h2

lemma cc_stepQuery (look : LookFn) (a : ATN) (q : Query) (h : CacheConsistent look a) :
    CacheConsistent look (stepQuery look a q) := by
  cases q with
  | nextTokens sn ctx => exact cc_nextTokens look a sn ctx h
  | nextTokensNoContext sn => exact cc_nextNoCtx look a sn h
  | nextTokensInContext sn ctx => exact h
  | getExpectedTokens n ctx => exact cc_getExpected look a n ctx h

lemma cc_runQueries (look : LookFn) :
    ∀ (qs : List Query) (a : ATN), CacheConsistent look a →
      CacheConsistent look (runQueries look a qs) := by
  intro qs
  induction qs with
  | nil => intro a h; exact h
  | cons q t ih =>
    intro a h
    exact ih (stepQuery look a q) (cc_stepQuery look a q h)

lemma nextTokens_fst_ok (look : LookFn) (a : ATN) (sn : Nat) (ctx : RuleContext)
    (r : IntervalSet) (h : CacheConsistent look a)
    (hr : (a.NextTokens look sn ctx).1 = .ok r) :
    r = canonicalNext look sn ctx := by
  cases ctx with
  | nil =>
    simp only [ATN.NextTokens, ATN.NextTokensNoContext] at hr
    revert hr
    split
    next s heq =>
      split
      next c hc =>
        intro hr
        have hcr : c = r := Except.ok.inj hr
        rw [← hcr]
        exact h sn s c heq hc
      next hc =>
        intro hr
        exact (Except.ok.inj hr).symm
    next x heq =>
      intro hr
      exact absurd hr (by simp)
  | node inv p =>
    exact (Except.ok.inj hr).symm

end CacheInvariant

section StructuralCongruence

lemma firstRuleFollow_eraseCaches (a : ATN) (sn : Nat) :
    a.eraseCaches.firstRuleFollow sn = a.firstRuleFollow sn := by
  simp only [ATN.firstRuleFollow, ATN.eraseCaches, list_get?_map]
  cases a.states.get? sn with
  | none => rfl
  | some o =>
    cases o with
    | none => rfl
    | some s => rfl

lemma firstRuleFollow_congr {a b : ATN} (h : a.eraseCaches = b.eraseCaches) (sn : Nat) :
    a.firstRuleFollow sn = b.firstRuleFollow sn := by
  rw [← firstRuleFollow_eraseCaches a, ← firstRuleFollow_eraseCaches b, h]

lemma allEpsilon_congr (look : LookFn) {a b : ATN} (h : a.eraseCaches = b.eraseCaches) :
    ∀ ctx, allEpsilon look a ctx ↔ allEpsilon look b ctx := by
  intro ctx
  induction ctx with
  | nil => exact Iff.rfl
  | node inv p ih =>
    simp only [allEpsilon, firstRuleFollow_congr h, ih]

end StructuralCongruence

section LoopAnalysis

lemma loopStep_ok (look : LookFn) (a : ATN) (inv : Int) (r : IntervalSet) (a2 : ATN)
    (h : a.loopStep look inv = (.ok r, a2)) :
    ∃ fs, a.firstRuleFollow inv.toNat = some fs
      ∧ a.NextTokens look fs RuleContext.nil = (.ok r, a2) := by
  simp only [ATN.loopStep] at h
  split at h
  next s heq =>
    split at h
    next fs htr =>
      refine ⟨fs, ?_, h⟩
      simp only [ATN.firstRuleFollow, heq, htr]
    next htr => exact absurd h (by simp)
    next htr => exact absurd h (by simp)
  next heq => exact absurd h (by simp)
  next heq => exact absurd h (by simp)

lemma loopStep_of_firstRuleFollow (look : LookFn) (a : ATN) (inv : Int) (fs : Nat)
    (h : a.firstRuleFollow inv.toNat = some fs) :
    a.loopStep look inv = a.NextTokens look fs RuleContext.nil := by
  simp only [ATN.firstRuleFollow] at h
  split at h
  next s heq =>
    split at h
    next fs2 htr =>
      have : fs2 = fs := Option.some.inj h
      subst this
      simp only [ATN.loopStep, heq, htr]
    next htr => exact absurd h (by simp)
  next heq => exact absurd h (by simp)

lemma expectedLoop_mono (look : LookFn) :
    ∀ (ctx : RuleContext) (a : ATN) (f e ff ex : IntervalSet) (a2 : ATN) (t : Int),
      a.expectedLoop look ctx f e = (.ok (ff, ex), a2) →
      t ∈ e.tokens → t ≠ TokenEpsilon → t ∈ ex.tokens := by
  intro ctx
  induction ctx with
  | nil =>
    intro a f e ff ex a2 t h ht hne
    simp only [ATN.expectedLoop, Prod.mk.injEq, Except.ok.injEq] at h
    rw [← h.1.2]
    exact ht
  | node inv parent ih =>
    intro a f e ff ex a2 t h ht hne
    simp only [ATN.expectedLoop] at h
    by_cases hg : 0 ≤ inv ∧ f.Contains TokenEpsilon
    · rw [if_pos hg] at h
      split at h
      next f2 a3 heq =>
        apply ih a3 f2 _ ff ex a2 t h _ hne
        rw [mem_removeOne]
        exact ⟨(mem_addSet e f2 t).mpr (Or.inl ht), hne⟩
      next e2 a3 heq => exact absurd h (by simp)
    · rw [if_neg hg] at h
      simp only [Prod.mk.injEq, Except.ok.injEq] at h
      rw [← h.1.2]
      exact ht

lemma expectedLoop_allEps (look : LookFn) :
    ∀ (ctx : RuleContext) (a : ATN) (f e ff ex : IntervalSet) (a2 : ATN),
      CacheConsistent look a → allEpsilon look a ctx →
      TokenEpsilon ∈ f.tokens →
      a.expectedLoop look ctx f e = (.ok (ff, ex), a2) →
      TokenEpsilon ∈ ff.tokens := by
  intro ctx
  induction ctx with
  | nil =>
    intro a f e ff ex a2 _ _ hf h
    simp only [ATN.expectedLoop, Prod.mk.injEq, Except.ok.injEq] at h
    rw [← h.1.1]
    exact hf
  | node inv parent ih =>
    intro a f e ff ex a2 hcc hae hf h
    obtain ⟨hinv, fs, hfrf, hfse, hparent⟩ := hae
    simp only [ATN.expectedLoop] at h
    rw [if_pos ⟨hinv, (Contains_iff f TokenEpsilon).mpr hf⟩] at h
    rw [loopStep_of_firstRuleFollow look a inv fs hfrf] at h
    split at h
    next f2 a3 heq =>
      have hcc3 : CacheConsistent look a3 := by
        have := cc_nextTokens look a fs RuleContext.nil hcc
        rw [heq] at this
        exact this
      have her3 : a3.eraseCaches = a.eraseCaches := by
        have := nextTokens_snd_eraseCaches look a fs RuleContext.nil
        rw [heq] at this
        exact this
      have hf2 : f2 = canonicalNext look fs RuleContext.nil := by
        apply nextTokens_fst_ok look a fs RuleContext.nil f2 hcc
        rw [heq]
      apply ih a3 f2 _ ff ex a2 hcc3
        ((allEpsilon_congr look her3 parent).mpr hparent) _ h
      rw [hf2]
      exact hfse
    next e2 a3 heq => exact absurd h (by simp)

lemma nextTokens_error_msg (look : LookFn) (a : ATN) (sn : Nat) (ctx : RuleContext)
    (msg : String) (a2 : ATN) (h : a.NextTokens look sn ctx = (.error msg, a2)) :
    msg = "nil state dereference" := by
  cases ctx with
  | nil =>
    simp only [ATN.NextTokens, ATN.NextTokensNoContext] at h
    split at h
    next s heq =>
      split at h
      · exact absurd h (by simp)
      · exact absurd h (by simp)
    next x heq =>
      simp only [Prod.mk.injEq, Except.error.injEq] at h
      exact h.1.symm
  | node inv p => exact absurd h (by simp [ATN.NextTokens])

lemma loopStep_error_msg (look : LookFn) (a : ATN) (inv : Int) (msg : String) (a2 : ATN)
    (h : a.loopStep look inv = (.error msg, a2)) :
    msg = "nil state dereference" ∨ msg = "index out of range"
      ∨ msg = "type assertion failed" := by
  simp only [ATN.loopStep] at h
  split at h
  next s heq =>
    split at h
    next fs htr => exact Or.inl (nextTokens_error_msg look a fs RuleContext.nil msg a2 h)
    next htr =>
      simp only [Prod.mk.injEq, Except.error.injEq] at h
      exact Or.inr (Or.inr h.1.symm)
    next htr =>
      simp only [Prod.mk.injEq, Except.error.injEq] at h
      exact Or.inr (Or.inl h.1.symm)
  next heq =>
    simp only [Prod.mk.injEq, Except.error.injEq] at h
    exact Or.inl h.1.symm
  next heq =>
    simp only [Prod.mk.injEq, Except.error.injEq] at h
    exact Or.inr (Or.inl h.1.symm)

lemma expectedLoop_error_msg (look : LookFn) :
    ∀ (ctx : RuleContext) (a : ATN) (f e : IntervalSet) (msg : String) (a2 : ATN),
      a.expectedLoop look ctx f e = (.error msg, a2) →
      msg = "nil state dereference" ∨ msg = "index out of range"
        ∨ msg = "type assertion failed" := by
  intro ctx
  induction ctx with
  | nil =>
    intro a f e msg a2 h
    exact absurd h (by simp [ATN.expectedLoop])
  | node inv parent ih =>
    intro a f e msg a2 h
    simp only [ATN.expectedLoop] at h
    by_cases hg : 0 ≤ inv ∧ f.Contains TokenEpsilon
    · rw [if_pos hg] at h
      split at h
      next f2 a3 heq => exact ih a3 f2 _ msg a2 h
      next e2 a3 heq =>
        simp only [Prod.mk.injEq, Except.error.injEq] at h
        rw [← h.1]
        exact loopStep_error_msg look a inv e2 a3 heq
    · rw [if_neg hg] at h
      exact absurd h (by simp)

end LoopAnalysis

section ConcreteGadgets

/-- noCaches checks that no state of the graph carries a memoized set
yet, the situation right after construction. -/
def noCaches (a : ATN) : Bool :=
  a.states.all (fun slot =>
    match slot with
    | some s => s.nextTokenWithinRule.isNone
    | none => true)

lemma cc_of_noCaches (look : LookFn) (a : ATN) (h : noCaches a = true) :
    CacheConsistent look a := by
  intro sn s c hs hc
  have hmem : some s ∈ a.states := List.get?_mem hs
  have hall := List.all_eq_true.mp h _ hmem
  have hall2 : s.nextTokenWithinRule.isNone = true := hall
  rw [hc] at hall2
  simp at hall2

/-- lookW is a small concrete analyzer instance used to evaluate the
theorems on closed inputs: the rule of state 0 can be exited silently
(the epsilon marker is in its within-rule answer), follow state 2
continues with token 5, and a query carrying any non-nil context reaches
end of input past the rule boundary. -/
def lookW : LookFn := fun sn ctx =>
  match ctx with
  | RuleContext.nil =>
    if sn = 0 then ⟨[TokenEpsilon], false⟩
    else if sn = 2 then ⟨[5], false⟩
    else ⟨[], false⟩
  | _ => ⟨[TokenEOF], false⟩

/-- atnW is a small concrete graph used to evaluate the theorems: state 0
is a queried state, state 1 an invoking state whose only transition is a
rule transition with follow state 2. -/
def atnW : ATN :=
  { states :=
      [ some { stateNumber := 0 },
        some { stateNumber := 1, transitions := [Transition.rule 2] },
        some { stateNumber := 2 } ] }

lemma cc_atnW (look : LookFn) : CacheConsistent look atnW :=
  cc_of_noCaches look atnW (by rfl)

end ConcreteGadgets

/-- C3: getExpectedTokens reports the fatal invalid-state-number
condition exactly when the queried state number is negative or at least
the number of states in the graph, and for such inputs it never silently
returns a token set. -/
theorem getExpectedTokens_invalid_state (look : LookFn) (a : ATN) (n : Int)
    (ctx : RuleContext) :
    ((a.getExpectedTokens look n ctx).1 = .error "Invalid state number."
      ↔ n < 0 ∨ (a.states.length : Int) ≤ n)
  ∧ ((n < 0 ∨ (a.states.length : Int) ≤ n) →
      ∀ r : IntervalSet, (a.getExpectedTokens look n ctx).1 ≠ .ok r) := by
  constructor
  · constructor
    · intro h
      by_contra hb
      simp only [ATN.getExpectedTokens, if_neg hb] at h
      revert h
      split
      next e a1 heq =>
        intro h
        have he := nextTokens_error_msg look a n.toNat RuleContext.nil e a1 heq
        have h2 : e = "Invalid state number." := Except.error.inj h
        rw [h2] at he
        exact absurd he (by decide)
      next following a1 heq =>
        split
        · intro h
          exact absurd h (by simp)
        · split
          next f2 e2 a3 heq2 =>
            split
            · intro h
              exact absurd h (by simp)
            · intro h
              exact absurd h (by simp)
          next e2 a3 heq2 =>
            intro h
            have he := expectedLoop_error_msg look ctx a1 following
              ((NewIntervalSet.addSet following).removeOne TokenEpsilon) e2 a3 heq2
            have h2 : e2 = "Invalid state number." := Except.error.inj h
            rw [h2] at he
            exact absurd he (by decide)
    · intro hb
      simp only [ATN.getExpectedTokens, if_pos hb]
  · intro hb r
    simp only [ATN.getExpectedTokens, if_pos hb]
    simp

/-- Witness for C3: the concrete graph atnW has three states, so the
calls with state number -1 and 3 both report the fatal invalid-state
condition. -/
theorem getExpectedTokens_invalid_state_witness :
    (atnW.getExpectedTokens lookW (-1) RuleContext.nil).1 = .error "Invalid state number."
  ∧ (atnW.getExpectedTokens lookW 3 RuleContext.nil).1 = .error "Invalid state number." :=
  ⟨(getExpectedTokens_invalid_state lookW atnW (-1) RuleContext.nil).1.mpr (by decide),
   (getExpectedTokens_invalid_state lookW atnW 3 RuleContext.nil).1.mpr (by decide)⟩

/-- C6: nextTokens is deterministic and idempotent — starting from one
cache-consistent graph, two successful nextTokens calls at the same state
and context return equal sets with identical contents, no matter which
other queries ran before either call. -/
theorem nextTokens_deterministic (look : LookFn) (a0 : ATN)
    (h : CacheConsistent look a0) (qs1 qs2 : List Query) (sn : Nat)
    (ctx : RuleContext) (r1 r2 : IntervalSet)
    (h1 : ((runQueries look a0 qs1).NextTokens look sn ctx).1 = .ok r1)
    (h2 : ((runQueries look a0 qs2).NextTokens look sn ctx).1 = .ok r2) :
    r1 = r2 ∧ r1.tokens = r2.tokens := by
  have c1 := cc_runQueries look qs1 a0 h
  have c2 := cc_runQueries look qs2 a0 h
  have e1 := nextTokens_fst_ok look _ sn ctx r1 c1 h1
  have e2 := nextTokens_fst_ok look _ sn ctx r2 c2 h2
  rw [e1, e2]
  exact ⟨rfl, rfl⟩

/-- Witness for C6: on the concrete graph, a first-ever call and a call
made after another query already memoized the state agree exactly. -/
theorem nextTokens_deterministic_witness :
    (⟨[TokenEpsilon], true⟩ : IntervalSet) = (⟨[TokenEpsilon], true⟩ : IntervalSet)
  ∧ (⟨[TokenEpsilon], true⟩ : IntervalSet).tokens
      = (⟨[TokenEpsilon], true⟩ : IntervalSet).tokens :=
  nextTokens_deterministic lookW atnW (cc_atnW lookW) []
    [Query.nextTokens 0 RuleContext.nil] 0 RuleContext.nil
    ⟨[TokenEpsilon], true⟩ ⟨[TokenEpsilon], true⟩ (by rfl) (by rfl)

/-- C2: whenever the context-free closure of the queried state contains
the epsilon marker, a successful getExpectedTokens call includes every
non-epsilon token of the analyzer answer at the first enclosing context
level when the context is non-root with a valid invoking state; it
includes the end-of-input marker when the context is root-only, and also
whenever the whole chain is walkable with epsilon surviving at every
level (the outermost context exhausted while still epsilon-reachable). -/
theorem getExpectedTokens_epsilon_propagation (look : LookFn) (a : ATN) (n : Int)
    (ctx : RuleContext) (r : IntervalSet) (a2 : ATN)
    (hcc : CacheConsistent look a)
    (heps : TokenEpsilon ∈ (look n.toNat RuleContext.nil).tokens)
    (hrun : a.getExpectedTokens look n ctx = (.ok r, a2)) :
    (∀ inv parent, ctx = RuleContext.node inv parent → 0 ≤ inv →
        ∃ fs, a.firstRuleFollow inv.toNat = some fs
          ∧ ∀ t, t ∈ (look fs RuleContext.nil).tokens → t ≠ TokenEpsilon →
              t ∈ r.tokens)
  ∧ (ctx.rootOnly → TokenEOF ∈ r.tokens)
  ∧ (allEpsilon look a ctx → TokenEOF ∈ r.tokens) := by
  simp only [ATN.getExpectedTokens] at hrun
  split at hrun
  · exact absurd hrun (by simp)
  next hb =>
    split at hrun
    next e a1 heq1 => exact absurd hrun (by simp)
    next following a1 heq1 =>
      have hcc1 : CacheConsistent look a1 := by
        have := cc_nextTokens look a n.toNat RuleContext.nil hcc
        rw [heq1] at this
        exact this
      have her1 : a1.eraseCaches = a.eraseCaches := by
        have := nextTokens_snd_eraseCaches look a n.toNat RuleContext.nil
        rw [heq1] at this
        exact this
      have hfoll : following = canonicalNext look n.toNat RuleContext.nil := by
        apply nextTokens_fst_ok look a n.toNat RuleContext.nil following hcc
        rw [heq1]
      have hfoll_eps : TokenEpsilon ∈ following.tokens := by
        rw [hfoll]
        exact heps
      have hcont : following.Contains TokenEpsilon = true :=
        (Contains_iff following TokenEpsilon).mpr hfoll_eps
      rw [if_neg (not_not_intro hcont)] at hrun
      split at hrun
      next f2 e2 a3 heq2 =>
        have haux : (∀ t, t ∈ e2.tokens → t ∈ r.tokens)
            ∧ (f2.Contains TokenEpsilon = true → TokenEOF ∈ r.tokens) := by
          by_cases hfc : f2.Contains TokenEpsilon
          · rw [if_pos hfc] at hrun
            simp only [Prod.mk.injEq, Except.ok.injEq] at hrun
            constructor
            · intro t ht
              rw [← hrun.1]
              exact (mem_AddOne e2 TokenEOF t).mpr (Or.inl ht)
            · intro _
              rw [← hrun.1]
              exact (mem_AddOne e2 TokenEOF TokenEOF).mpr (Or.inr rfl)
          · rw [if_neg hfc] at hrun
            simp only [Prod.mk.injEq, Except.ok.injEq] at hrun
            exact ⟨fun t ht => hrun.1 ▸ ht, fun hc => absurd hc hfc⟩
        refine ⟨?_, ?_, ?_⟩
        · intro inv parent hctx hinv
          subst hctx
          simp only [ATN.expectedLoop] at heq2
          rw [if_pos ⟨hinv, hcont⟩] at heq2
          split at heq2
          next f2l a4 heq3 =>
            obtain ⟨fs, hfrf1, hnt⟩ := loopStep_ok look a1 inv f2l a4 heq3
            refine ⟨fs, ?_, ?_⟩
            · rw [← firstRuleFollow_congr her1 inv.toNat]
              exact hfrf1
            · intro t htl htne
              have hf2l : f2l = canonicalNext look fs RuleContext.nil := by
                apply nextTokens_fst_ok look a1 fs RuleContext.nil f2l hcc1
                rw [hnt]
              have ht2 : t ∈ f2l.tokens := by
                rw [hf2l]
                exact htl
              apply haux.1
              apply expectedLoop_mono look parent a4 f2l
                ((((NewIntervalSet.addSet following).removeOne TokenEpsilon).addSet
                    f2l).removeOne TokenEpsilon) f2 e2 a3 t heq2 _ htne
              rw [mem_removeOne]
              refine ⟨?_, htne⟩
              rw [mem_addSet]
              exact Or.inr ht2
          next e2l a4 heq3 => exact absurd heq2 (by simp)
        · intro hroot
          have hfe : f2 = following := by
            cases ctx with
            | nil =>
              simp only [ATN.expectedLoop, Prod.mk.injEq, Except.ok.injEq] at heq2
              exact heq2.1.1.symm
            | node inv parent =>
              simp only [RuleContext.rootOnly] at hroot
              simp only [ATN.expectedLoop] at heq2
              rw [if_neg (fun hcond => absurd hcond.1 (not_le.mpr hroot))] at heq2
              simp only [Prod.mk.injEq, Except.ok.injEq] at heq2
              exact heq2.1.1.symm
          apply haux.2
          rw [hfe]
          exact hcont
        · intro hae
          apply haux.2
          apply (Contains_iff f2 TokenEpsilon).mpr
          exact expectedLoop_allEps look ctx a1 following
            ((NewIntervalSet.addSet following).removeOne TokenEpsilon) f2 e2 a3 hcc1
            ((allEpsilon_congr look her1 ctx).mpr hae) hfoll_eps heq2
      next e2 a3 heq2 => exact absurd hrun (by simp)

/-- Witness for C2: on the concrete graph, the context-free answer at
state 0 contains epsilon and the query with the root Go nil context
returns a set containing the end-of-input marker. -/
theorem getExpectedTokens_epsilon_propagation_witness :
    TokenEOF ∈ (⟨[TokenEOF], false⟩ : IntervalSet).tokens :=
  (getExpectedTokens_epsilon_propagation lookW atnW 0 RuleContext.nil
      ⟨[TokenEOF], false⟩ (atnW.getExpectedTokens lookW 0 RuleContext.nil).2
      (cc_atnW lookW) (by decide) (by rfl)).2.1 trivial

/-- C4: nextTokensNoContext is memoized per state — with an absent cache
it computes the answer through nextTokensInContext with nil context,
marks it read-only, stores it on the state and returns it, and any call
on a state with a present cache returns exactly the stored set leaving
the graph untouched; in particular the call right after the first one
returns the freshly stored set without recomputation. -/
theorem nextTokensNoContext_memoized (look : LookFn) (a : ATN) (sn : Nat)
    (s : ATNState) (h : a.states.get? sn = some (some s)) :
    (∀ c, s.nextTokenWithinRule = some c →
        a.NextTokensNoContext look sn = (.ok c, a))
  ∧ (s.nextTokenWithinRule = none →
      a.NextTokensNoContext look sn
          = (.ok ((a.NextTokensInContext look sn RuleContext.nil).setReadOnly true),
             a.writeCache sn s
               ((a.NextTokensInContext look sn RuleContext.nil).setReadOnly true))
      ∧ (a.writeCache sn s
            ((a.NextTokensInContext look sn RuleContext.nil).setReadOnly
              true)).NextTokensNoContext look sn
          = (.ok ((a.NextTokensInContext look sn RuleContext.nil).setReadOnly true),
             a.writeCache sn s
               ((a.NextTokensInContext look sn RuleContext.nil).setReadOnly true))) := by
  constructor
  · intro c hc
    simp only [ATN.NextTokensNoContext, h, hc]
  · intro hc
    constructor
    · simp only [ATN.NextTokensNoContext, h, hc]
    · have hw : (a.writeCache sn s ((a.NextTokensInContext look sn RuleContext.nil).setReadOnly true)).states.get? sn = some (some { s with nextTokenWithinRule := some ((a.NextTokensInContext look sn RuleContext.nil).setReadOnly true) }) := by
        simp only [ATN.writeCache]
        exact list_get?_set_self _ _ _ (list_get?_some_lt _ _ _ h)
      simp only [ATN.NextTokensNoContext, hw]

/-- Witness for C4: on the concrete graph, the first call at state 0
stores the read-only answer and the immediate second call returns it
unchanged. -/
theorem nextTokensNoContext_memoized_witness :
    atnW.NextTokensNoContext lookW 0
        = (.ok ((atnW.NextTokensInContext lookW 0 RuleContext.nil).setReadOnly true),
           atnW.writeCache 0 { stateNumber := 0 }
             ((atnW.NextTokensInContext lookW 0 RuleContext.nil).setReadOnly true))
  ∧ (atnW.writeCache 0 { stateNumber := 0 }
        ((atnW.NextTokensInContext lookW 0 RuleContext.nil).setReadOnly
          true)).NextTokensNoContext lookW 0
        = (.ok ((atnW.NextTokensInContext lookW 0 RuleContext.nil).setReadOnly true),
           atnW.writeCache 0 { stateNumber := 0 }
             ((atnW.NextTokensInContext lookW 0 RuleContext.nil).setReadOnly true)) :=
  (nextTokensNoContext_memoized lookW atnW 0 { stateNumber := 0 } (by rfl)).2 (by rfl)

/-- C5 (amended): nextTokens dispatches on the Go nil check only — a nil
context is routed to the memoized nextTokensNoContext, and every non-nil
context, the non-nil empty root marker included, is routed to
nextTokensInContext on the unchanged graph. -/
theorem nextTokens_dispatch (look : LookFn) (a : ATN) (sn : Nat) (ctx : RuleContext)
    (h : ctx ≠ RuleContext.nil) :
    a.NextTokens look sn RuleContext.nil = a.NextTokensNoContext look sn
  ∧ a.NextTokens look sn ctx = (.ok (a.NextTokensInContext look sn ctx), a) := by
  constructor
  · rfl
  · cases ctx with
    | nil => exact absurd rfl h
    | node inv p => rfl

/-- Witness for C5: the dispatch equations evaluated at state 0 with the
non-nil empty root context marker. -/
theorem nextTokens_dispatch_witness :
    atnW.NextTokens lookW 0 RuleContext.nil = atnW.NextTokensNoContext lookW 0
  ∧ atnW.NextTokens lookW 0 RuleContextEmpty
      = (.ok (atnW.NextTokensInContext lookW 0 RuleContextEmpty), atnW) :=
  nextTokens_dispatch lookW atnW 0 RuleContextEmpty (by decide)

/-- Counterexample for C5 as stated: with the empty root context marker
(which is non-nil), nextTokens takes the nextTokensInContext path; under
an analyzer that, like the real one, reports end of input past the rule
boundary for the root marker but the epsilon marker for the Go nil
context, the returned set has contents {EOF} while nextTokensNoContext
returns contents {epsilon} — so nextTokens on the empty root marker does
not equal nextTokensNoContext. -/
theorem nextTokens_empty_root_counterexample :
    (atnW.NextTokens lookW 0 RuleContextEmpty).1
        = .ok (⟨[TokenEOF], false⟩ : IntervalSet)
  ∧ (atnW.NextTokensNoContext lookW 0).1 = .ok (⟨[TokenEpsilon], true⟩ : IntervalSet)
  ∧ (⟨[TokenEOF], false⟩ : IntervalSet) ≠ (⟨[TokenEpsilon], true⟩ : IntervalSet)
  ∧ ([TokenEOF] : List Int) ≠ ([TokenEpsilon] : List Int) :=
  ⟨rfl, rfl, by decide, by decide⟩

/-- C10: a nextTokens call with any non-nil context — the path through
nextTokensInContext — returns the graph unchanged, so it writes no cache
entry, and its answer does not depend on the graph object at all (the
modelled analyzer reads only the fixed graph structure), so it reads no
cache entry either. -/
theorem nextTokensInContext_cache_frame (look : LookFn) (a b : ATN) (sn : Nat)
    (ctx : RuleContext) (h : ctx ≠ RuleContext.nil) :
    (a.NextTokens look sn ctx).2 = a
  ∧ (a.NextTokens look sn ctx).1 = .ok (a.NextTokensInContext look sn ctx)
  ∧ a.NextTokensInContext look sn ctx = b.NextTokensInContext look sn ctx := by
  cases ctx with
  | nil => exact absurd rfl h
  | node inv p => exact ⟨rfl, rfl, rfl⟩

/-- Witness for C10: the frame conditions evaluated on the concrete graph
against the freshly constructed empty graph. -/
theorem nextTokensInContext_cache_frame_witness :
    (atnW.NextTokens lookW 0 RuleContextEmpty).2 = atnW
  ∧ (atnW.NextTokens lookW 0 RuleContextEmpty).1
      = .ok (atnW.NextTokensInContext lookW 0 RuleContextEmpty)
  ∧ atnW.NextTokensInContext lookW 0 RuleContextEmpty
      = (NewATN 0 0).NextTokensInContext lookW 0 RuleContextEmpty :=
  nextTokensInContext_cache_frame lookW atnW (NewATN 0 0) 0 RuleContextEmpty (by decide)

section ProgramRuns

lemma removeState_ok (a : ATN) (st : ATNState) (a2 : ATN)
    (h : a.removeState st = .ok a2) :
    a2.states = a.states.set st.stateNumber.toNat none
      ∧ 0 ≤ st.stateNumber ∧ st.stateNumber.toNat < a.states.length := by
  simp only [ATN.removeState] at h
  split at h
  next hc => exact ⟨by rw [← Except.ok.inj h], hc.1, hc.2⟩
  next hc => exact absurd h (by simp)

lemma stepQuery_states_length (look : LookFn) (a : ATN) (q : Query) :
    (stepQuery look a q).states.length = a.states.length :=
  states_length_of_eraseCaches (stepQuery_eraseCaches look a q)

lemma stepProg_states_length (look : LookFn) (p : ATN × Int) (op : ProgOp) :
    p.1.states.length ≤ (stepProg look p op).1.states.length := by
  cases op with
  | opAddState st =>
    cases st with
    | some s => simp [stepProg, ATN.addState]
    | none => simp [stepProg, ATN.addState]
  | opRemoveState st =>
    simp only [stepProg]
    split
    next a2 heq =>
      have h2 := removeState_ok p.1 st a2 heq
      rw [h2.1]
      simp
    next heq => exact le_refl _
  | opDefineDecisionState s => exact le_refl _
  | opGetDecisionState d => exact le_refl _
  | opQuery q => exact le_of_eq (stepQuery_states_length look p.1 q).symm

lemma runProgram_states_mono (look : LookFn) :
    ∀ (ops : List ProgOp) (p : ATN × Int),
      p.1.states.length ≤ (runProgram look p ops).1.states.length := by
  intro ops
  induction ops with
  | nil => intro p; exact le_refl _
  | cons op t ih =>
    intro p
    exact le_trans (stepProg_states_length look p op) (ih (stepProg look p op))

lemma runProgram_global (look : LookFn) :
    ∀ (ops : List ProgOp) (p : ATN × Int), (runProgram look p ops).2 = p.2 := by
  intro ops
  induction ops with
  | nil => intro p; rfl
  | cons op t ih =>
    intro p
    rw [runProgram, ih]
    cases op with
    | opAddState st => rfl
    | opRemoveState st =>
      simp only [stepProg]
      split <;> rfl
    | opDefineDecisionState s => rfl
    | opGetDecisionState d => rfl
    | opQuery q => rfl

end ProgramRuns

/-- C7: addState stamps a non-nil state with the pre-append length of the
state array and appends it, while the nil marker is appended without a
number; removeState clears exactly its slot in place, keeping the array
length and every other entry; and across any further sequence of
operations the state count never shrinks, so the number a later addState
would assign strictly exceeds every state number valid before — a
removed number is never assigned again. -/
theorem state_numbers_stable :
    (∀ (a : ATN) (s : ATNState),
        (a.addState (some s)).states
          = a.states ++ [some { s with stateNumber := (a.states.length : Int) }])
  ∧ (∀ a : ATN, (a.addState none).states = a.states ++ [none])
  ∧ (∀ (a : ATN) (st : ATNState) (a2 : ATN), a.removeState st = .ok a2 →
        a2.states.length = a.states.length
        ∧ a2.states.get? st.stateNumber.toNat = some none
        ∧ ∀ j, j ≠ st.stateNumber.toNat → a2.states.get? j = a.states.get? j)
  ∧ (∀ (look : LookFn) (a : ATN) (g : Int) (ops : List ProgOp) (k : Nat),
        k < a.states.length →
        k < ((runProgram look (a, g) ops).1).states.length
        ∧ ∀ s : ATNState,
            ((runProgram look (a, g) ops).1.addState (some s)).states
              = (runProgram look (a, g) ops).1.states
                ++ [some { s with stateNumber := ((((runProgram look (a, g) ops).1).states.length : Nat) : Int) }]
            ∧ (k : Int) < ((((runProgram look (a, g) ops).1).states.length : Nat) : Int)) := by
  refine ⟨fun a s => rfl, fun a => rfl, ?_, ?_⟩
  · intro a st a2 h
    obtain ⟨hset, hge, hlt⟩ := removeState_ok a st a2 h
    refine ⟨by rw [hset]; simp, ?_, ?_⟩
    · rw [hset]
      exact list_get?_set_self _ _ _ hlt
    · intro j hj
      rw [hset]
      exact list_get?_set_other _ _ _ _ (fun hh => hj hh.symm)
  · intro look a g ops k hk
    have hmono := runProgram_states_mono look ops (a, g)
    have hk2 : k < ((runProgram look (a, g) ops).1).states.length :=
      lt_of_lt_of_le hk hmono
    exact ⟨hk2, fun s => ⟨rfl, by exact_mod_cast hk2⟩⟩

/-- Witness for C7: removing state 1 from the concrete graph keeps the
length and clears exactly slot 1, and after any later add the running
length bound holds. -/
theorem state_numbers_stable_witness :
    ({ states := [some { stateNumber := 0 }, none, some { stateNumber := 2 }] } : ATN).states.length
        = atnW.states.length
    ∧ ({ states := [some { stateNumber := 0 }, none, some { stateNumber := 2 }] } : ATN).states.get? 1
        = some none :=
  ⟨(state_numbers_stable.2.2.1 atnW { stateNumber := 1, transitions := [Transition.rule 2] }
      { states := [some { stateNumber := 0 }, none, some { stateNumber := 2 }] } (by rfl)).1,
   (state_numbers_stable.2.2.1 atnW { stateNumber := 1, transitions := [Transition.rule 2] }
      { states := [some { stateNumber := 0 }, none, some { stateNumber := 2 }] } (by rfl)).2.1⟩

section DecisionRoundTrip

/-- stampFrom is the expected decision table after defining a list of
decision states in order from a table of given length: each entry stamped
with its dense insertion index. -/
def stampFrom (d : Nat) : List DecisionState → List DecisionState
  | [] => []
  | s :: ss => { s with decision := (d : Int) } :: stampFrom (d + 1) ss

/-- defineAllIdx folds defineDecisionState over a list of decision
states, collecting the returned indices. -/
def defineAllIdx (a : ATN) : List DecisionState → List Int × ATN
  | [] => ([], a)
  | s :: ss =>
    let r := a.defineDecisionState s
    let rest := defineAllIdx r.2 ss
    (r.1 :: rest.1, rest.2)

/-- rangeIdx d n is the list of the n consecutive integers d, d+1, ...,
d+n-1; rangeIdx 0 D enumerates the dense decision indices 0 to D-1. -/
def rangeIdx (d n : Nat) : List Int :=
  match n with
  | 0 => []
  | m + 1 => ((d : Nat) : Int) :: rangeIdx (d + 1) m

lemma stampFrom_length (ss : List DecisionState) :
    ∀ d, (stampFrom d ss).length = ss.length := by
  induction ss with
  | nil => intro d; rfl
  | cons s t ih =>
    intro d
    simp only [stampFrom, List.length_cons, ih]

lemma stampFrom_get? (ss : List DecisionState) :
    ∀ (d i : Nat) (s0 : DecisionState), ss.get? i = some s0 →
      (stampFrom d ss).get? i = some { s0 with decision := ((d + i : Nat) : Int) } := by
  induction ss with
  | nil =>
    intro d i s0 h
    cases i <;> cases h
  | cons s t ih =>
    intro d i s0 h
    cases i with
    | zero =>
      have : s = s0 := Option.some.inj h
      subst this
      simp [stampFrom]
    | succ m =>
      have h2 : t.get? m = some s0 := h
      have := ih (d + 1) m s0 h2
      simp only [stampFrom, List.get?]
      rw [this]
      congr 2
      omega

lemma defineAllIdx_spec (ss : List DecisionState) :
    ∀ a : ATN,
      (defineAllIdx a ss).1 = rangeIdx a.DecisionToState.length ss.length
      ∧ (defineAllIdx a ss).2.DecisionToState
          = a.DecisionToState ++ stampFrom a.DecisionToState.length ss := by
  induction ss with
  | nil =>
    intro a
    exact ⟨rfl, by simp [defineAllIdx, stampFrom]⟩
  | cons s t ih =>
    intro a
    have hd : (a.defineDecisionState s).2.DecisionToState
        = a.DecisionToState ++ [{ s with decision := (a.DecisionToState.length : Int) }] := rfl
    have hlen : (a.defineDecisionState s).2.DecisionToState.length
        = a.DecisionToState.length + 1 := by
      rw [hd]
      simp
    obtain ⟨ih1, ih2⟩ := ih (a.defineDecisionState s).2
    constructor
    · simp only [defineAllIdx, List.length_cons]
      rw [ih1, hlen]
      rfl
    · simp only [defineAllIdx]
      rw [ih2, hd]
      simp only [stampFrom, List.append_assoc, List.singleton_append, List.length_append,
        List.length_cons, List.length_nil, Nat.zero_add]

end DecisionRoundTrip

/-- C8: starting from a graph with no decision states, defining D
decision states in order returns the dense indices 0, 1, ..., D-1 and
stamps each state with its insertion index, getDecisionState of the empty
table returns the Go nil, and after the definitions getDecisionState at
every index i below D returns exactly the i-th defined state carrying
decision index i. -/
theorem decision_round_trip (a0 : ATN) (hempty : a0.DecisionToState = [])
    (ss : List DecisionState) :
    (∀ d : Int, a0.getDecisionState d = .ok none)
  ∧ (defineAllIdx a0 ss).1 = rangeIdx 0 ss.length
  ∧ (∀ (i : Nat) (s0 : DecisionState), ss.get? i = some s0 →
      (defineAllIdx a0 ss).2.getDecisionState (i : Int)
        = .ok (some { s0 with decision := ((i : Nat) : Int) })) := by
  obtain ⟨h1, h2⟩ := defineAllIdx_spec ss a0
  rw [hempty] at h1 h2
  simp only [List.length_nil, List.nil_append] at h1 h2
  refine ⟨?_, h1, ?_⟩
  · intro d
    simp [ATN.getDecisionState, hempty]
  · intro i s0 hget
    have hlt : i < ss.length := list_get?_some_lt _ _ _ hget
    have htab : (defineAllIdx a0 ss).2.DecisionToState = stampFrom 0 ss := h2
    have hlen : (defineAllIdx a0 ss).2.DecisionToState.length = ss.length := by
      rw [htab]
      exact stampFrom_length ss 0
    have hne : ¬ (defineAllIdx a0 ss).2.DecisionToState.length = 0 := by
      rw [hlen]
      omega
    have hrange : 0 ≤ (i : Int) ∧ ((i : Nat) : Int).toNat
        < (defineAllIdx a0 ss).2.DecisionToState.length := by
      constructor
      · exact Int.natCast_nonneg i
      · rw [hlen, Int.toNat_natCast]
        exact hlt
    simp only [ATN.getDecisionState, if_neg hne, if_pos hrange]
    rw [htab, Int.toNat_natCast]
    rw [stampFrom_get? ss 0 i s0 hget]
    congr 3
    omega

/-- Witness for C8: defining two decision states on a fresh graph yields
indices 0 and 1, and index 1 returns the second state stamped with 1. -/
theorem decision_round_trip_witness :
    (defineAllIdx (NewATN 0 0) [{ stateNumber := 7 }, { stateNumber := 9 }]).1
        = rangeIdx 0 2
    ∧ (defineAllIdx (NewATN 0 0) [{ stateNumber := 7 }, { stateNumber := 9 }]).2.getDecisionState 1
        = .ok (some { stateNumber := 9, decision := 1 }) :=
  ⟨(decision_round_trip (NewATN 0 0) rfl [{ stateNumber := 7 }, { stateNumber := 9 }]).2.1,
   (decision_round_trip (NewATN 0 0) rfl [{ stateNumber := 7 }, { stateNumber := 9 }]).2.2
      1 { stateNumber := 9 } (by rfl)⟩

/-- C9: the package-level sentinel ATNInvalidAltNumber holds the Go zero
value 0, and no operation of the module — construction, mutation or
query — ever assigns to it, so it is unchanged by every operation
sequence. -/
theorem invalid_alt_number_constant :
    ATNInvalidAltNumber = 0
  ∧ ∀ (look : LookFn) (a : ATN) (ops : List ProgOp),
      (runProgram look (a, ATNInvalidAltNumber) ops).2 = ATNInvalidAltNumber :=
  ⟨rfl, fun look a ops => runProgram_global look ops (a, ATNInvalidAltNumber)⟩

end Antlr
